import Mathlib

set_option maxRecDepth 100000

/-!
# Entity normalization and aggregation pipeline: a shallow embedding

This file embeds the core data-transformation layer of the AssignmentNER
repository (`app/entity_processor.py` together with the chunking helper of
`app/ner_service.py` and the metadata registry of `app/config.py`) as
executable Lean definitions, and proves properties of that embedding.

Modelling conventions:
* Python `str` is modelled as Lean `String` / `List Char`; `len` is the
  number of characters.
* The regex class `\s` and Python's default `str.strip()` / `str.split()`
  whitespace are modelled by the six ASCII whitespace characters
  (space, tab, newline, carriage return, vertical tab, form feed);
  non-ASCII Unicode whitespace is not modelled.  Likewise `str.lower`,
  `str.islower`, `str.isupper` are modelled on ASCII letters only.
* Python floats (prediction scores) are modelled by rationals; `min` on
  floats coincides with `min` on the rationals for the non-NaN values
  handled here.
* Python dict fields that may be absent are modelled with `Option`; a dict
  value that can additionally be present-but-`None` (the `"end"` key of the
  running mention inside `_merge_adjacent`) gets a dedicated three-state
  type.  An operation that would raise a Python `TypeError` is modelled by
  `Except String`.
-/

namespace NER

/-- The six characters matched by Python's `\s` (and stripped by
`str.strip()` / split on by `str.split()`) in the ASCII range. -/
def pySpace (c : Char) : Bool :=
  c = ' ' || c = '\t' || c = '\n' || c = '\r' || c = '\x0b' || c = '\x0c'

/-- ASCII lowercase letter test, modelling `str.islower` on one character. -/
def isLowerCh (c : Char) : Bool := 'a' ≤ c && c ≤ 'z'

/-- ASCII uppercase letter test (the regex class `[A-Z]`). -/
def isUpperCh (c : Char) : Bool := 'A' ≤ c && c ≤ 'Z'

/-- ASCII cased character (letter), the characters Python's case
predicates pay attention to. -/
def isCasedCh (c : Char) : Bool := isLowerCh c || isUpperCh c

/-- ASCII alphanumeric test (the regex class `[A-Za-z0-9]`). -/
def isAlnumCh (c : Char) : Bool := isCasedCh c || ('0' ≤ c && c ≤ '9')

/-- ASCII lowercasing of a character, modelling `str.lower` pointwise. -/
def toLowerCh (c : Char) : Char :=
  if isUpperCh c then Char.ofNat (c.toNat + 32) else c

/-- Python `str.lower` on a character list. -/
def pyLowerL (l : List Char) : List Char := l.map toLowerCh

/-- Python `str.lower` on a string. -/
def pyLower (s : String) : String := String.mk (pyLowerL s.data)

/-- Python `str.isupper`: at least one cased character and no lowercase cased
character. -/
def pyIsUpper (l : List Char) : Bool :=
  l.any isCasedCh && l.all (fun c => !(isCasedCh c) || isUpperCh c)

/-- Remove leading whitespace (left half of `str.strip()`). -/
def stripLeftWs (l : List Char) : List Char := l.dropWhile pySpace

/-- Remove trailing whitespace (right half of `str.strip()`). -/
def stripRightWs (l : List Char) : List Char :=
  (l.reverse.dropWhile pySpace).reverse

/-- Python `str.strip()`. -/
def stripWs (l : List Char) : List Char := stripRightWs (stripLeftWs l)

/-- Replace every maximal run of whitespace by a single space:
`re.sub(r"\s+", " ", ·)`. -/
def collapseWs : List Char → List Char
  | [] => []
  | [c] => if pySpace c then [' '] else [c]
  | c :: d :: rest =>
    if pySpace c && pySpace d then collapseWs (d :: rest)
    else (if pySpace c then ' ' else c) :: collapseWs (d :: rest)

/-- Models `re.sub(r"\s+", " ", ·).strip()`, the whitespace normalisation used
throughout `_clean_word`. -/
def normWs (l : List Char) : List Char := stripWs (collapseWs l)

/-- One round of Python `str.split()`: fuel-indexed worker.  Each round
drops leading whitespace, emits the next maximal whitespace-free word and
recurses on the rest; the fuel is an upper bound on the number of words. -/
def splitWsF : Nat → List Char → List (List Char)
  | 0, _ => []
  | fuel + 1, l =>
    let l1 := l.dropWhile pySpace
    match l1 with
    | [] => []
    | _ :: _ =>
      l1.takeWhile (fun c => !pySpace c) ::
        splitWsF fuel (l1.dropWhile (fun c => !pySpace c))

/-- Python `str.split()` (split on whitespace runs, dropping empties). -/
def splitWs (l : List Char) : List (List Char) := splitWsF l.length l

/-- Models `" ".join`. -/
def joinSpace (ps : List (List Char)) : List Char :=
  (List.intersperse [' '] ps).flatten

/-! ## The leaked-IOB-tag regex

`_IOB_TAG_RE = re.compile(r"\s*[BI]-(?:SecTeam|Sec|…|Email)\s*", re.IGNORECASE)`
with `.sub(" ", word)`: every non-overlapping match, scanning left to
right, is replaced by a single space.  Alternatives are tried in the order
they are written (Python chooses the first matching alternative, not the
longest). -/

/-- The class-name alternation of `_IOB_TAG_RE`, in source order, stored
lowercased for the case-insensitive comparison. -/
def iobTagNames : List (List Char) :=
  [ "secteam", "sec", "hackorg", "org", "mal", "tool", "act", "apt",
    "time", "loc", "idty", "encr", "file", "prot", "vulname", "vulid",
    "os", "sha2", "sha1", "md5", "url", "ip", "dom", "email"
  ].map String.data

/-- Try to match `\s*[BI]-NAME\s*` at the head of `l`; on success return
the rest of the string after the (greedy) match. -/
def iobMatch (l : List Char) : Option (List Char) :=
  let l1 := l.dropWhile pySpace
  match l1 with
  | c :: d :: rest =>
    if (c = 'B' || c = 'b' || c = 'I' || c = 'i') && d = '-' then
      match iobTagNames.find? (fun nm => pyLowerL (rest.take nm.length) = nm) with
      | some nm => some ((rest.drop nm.length).dropWhile pySpace)
      | none => none
    else none
  | _ => none

/-- Fuel-indexed worker for `_IOB_TAG_RE.sub(" ", ·)`: at each position try
a match (emitting `' '` and skipping the match) else copy one character. -/
def iobSubF : Nat → List Char → List Char
  | 0, l => l
  | _ + 1, [] => []
  | fuel + 1, c :: rest =>
    match iobMatch (c :: rest) with
    | some r => ' ' :: iobSubF fuel r
    | none => c :: iobSubF fuel rest

/-- Models `_IOB_TAG_RE.sub(" ", ·)`.  Every successful match consumes at least
four characters, so `l.length` is enough fuel. -/
def iobSub (l : List Char) : List Char := iobSubF l.length l

/-! ## `_clean_word` -/

/-- Constant `_MIN_ENTITY_LENGTH` from `entity_processor.py`. -/
def _MIN_ENTITY_LENGTH : Nat := 2

/-- Constant `_MERGE_GAP` from `entity_processor.py`. -/
def _MERGE_GAP : Int := 3

/-- Set `_COLLAPSE_SPACE_CLASSES`: classes whose values are structurally
space-free. -/
def _COLLAPSE_SPACE_CLASSES : List String :=
  ["VULID", "SHA1", "SHA2", "MD5", "FILE", "URL", "EMAIL", "IP", "DOM"]

/-- Set `_CAMELCASE_COLLAPSE_CLASSES`: classes where two-part CamelCase words
are collapsed into one compound name. -/
def _CAMELCASE_COLLAPSE_CLASSES : List String :=
  ["TOOL", "MAL", "APT", "ENCR"]

/-- The apostrophe character. -/
def apoCh : Char := Char.ofNat 39

/-- The characters of `word.strip("\"'`.,;:!?()[]{}|\\/@#$%^&*+=~<>- ")`. -/
def outerJunk : List Char :=
  ("\"'`.,;:!?()[]" ++ "\x7b\x7d" ++ "|\\/@#$%^&*+=~<>- ").data

/-- Python `str.strip(chars)`: remove characters in `set` from both ends. -/
def stripChars (set : List Char) (l : List Char) : List Char :=
  ((l.dropWhile (fun c => set.contains c)).reverse.dropWhile
    (fun c => set.contains c)).reverse

/-- Models `re.sub(r"[–—]+$", "", ·)`: drop a trailing run of en/em dashes. -/
def dropTrailingDashes (l : List Char) : List Char :=
  (l.reverse.dropWhile (fun c => c = '–' || c = '—')).reverse

/-- Models `re.sub(r"\s*'s?$", "", ·)`: drop a trailing `'s` or `'` together with
the whitespace immediately before the apostrophe. -/
def dropPossessive (l : List Char) : List Char :=
  if l.reverse.take 2 = ['s', apoCh] then
    stripRightWs (l.take (l.length - 2))
  else if l.reverse.take 1 = [apoCh] then
    stripRightWs (l.take (l.length - 1))
  else l

/-- Models `re.sub(r"\s*-?\s*Exp$", "", ·)`: drop a trailing `Exp` together with
at most one dash and the surrounding whitespace before it. -/
def dropExpSuffix (l : List Char) : List Char :=
  if l.reverse.take 3 = ['p', 'x', 'E'] then
    let t := stripRightWs (l.take (l.length - 3))
    let t := if t.reverse.take 1 = ['-'] then t.take (t.length - 1) else t
    stripRightWs t
  else l

/-- Whitespace test on an optional neighbouring character (a missing
neighbour, i.e. a string boundary, does not count as whitespace). -/
def optIsSpace : Option Char → Bool
  | some p => pySpace p
  | none => false

/-- Worker for `re.sub(r"(?<=\s)[A-Z](?=\s)", "", ·)`: an uppercase ASCII
letter is dropped exactly when the characters on both sides of it in the
original string are whitespace (`prev` carries the previous character). -/
def removeIsolatedCapsGo (prev : Option Char) : List Char → List Char
  | [] => []
  | c :: rest =>
    if isUpperCh c && optIsSpace prev && optIsSpace rest.head? then
      removeIsolatedCapsGo (some c) rest
    else c :: removeIsolatedCapsGo (some c) rest

/-- Models `re.sub(r"(?<=\s)[A-Z](?=\s)", "", ·)` (step 5 of `_clean_word`). -/
def removeIsolatedCaps (l : List Char) : List Char :=
  removeIsolatedCapsGo none l

/-- Steps 1–3 of `_clean_word`: BPE marker stripping, whitespace
normalisation, IOB tag removal, and the class-dependent space collapse /
fragment rejoin. -/
def cleanSteps123 (w0 : List Char) (entity_class : String) : List Char :=
  let w := w0.dropWhile (fun c => c = 'Ġ' || c = '▁' || c = '#')
  let w := normWs w
  let w := stripWs (iobSub w)
  if _COLLAPSE_SPACE_CLASSES.contains entity_class then
    w.filter (fun c => !pySpace c)
  else
    let parts := splitWs w
    if 3 ≤ parts.length && (parts.drop 1).all (fun p => p.length ≤ 3) then
      parts.flatten
    else
      match parts with
      | [p0, p1] =>
        if (match p1.head? with | some c => isLowerCh c | none => false) then
          p0 ++ p1
        else if p1.length ≤ 2 then p0 ++ p1
        else if pyIsUpper p0 && pyIsUpper p1 then p0 ++ p1
        else if _CAMELCASE_COLLAPSE_CLASSES.contains entity_class then p0 ++ p1
        else w
      | _ => w

/-- Character-half self-duplication collapse (lines 115–119 of
`entity_processor.py`). -/
def charHalfDedup (w : List Char) : List Char :=
  if 4 ≤ w.length && w.length % 2 = 0 &&
      stripWs (w.take (w.length / 2)) = stripWs (w.drop (w.length / 2)) then
    stripWs (w.take (w.length / 2))
  else w

/-- Token-half self-duplication collapse (lines 121–125 of
`entity_processor.py`). -/
def tokenHalfDedup (w : List Char) : List Char :=
  let parts := splitWs w
  if 2 ≤ parts.length && parts.length % 2 = 0 &&
      parts.take (parts.length / 2) = parts.drop (parts.length / 2) then
    joinSpace (parts.take (parts.length / 2))
  else w

/-- Step 4 of `_clean_word`: normalise whitespace, then collapse exact
self-duplication, first by character halves, then by token halves. -/
def cleanStep4 (w0 : List Char) : List Char :=
  tokenHalfDedup (charHalfDedup (normWs w0))

/-- Steps 5–8 and the final normalisation of `_clean_word`. -/
def cleanSteps5678 (w0 : List Char) : List Char :=
  let w := removeIsolatedCaps w0
  let w := normWs w
  let w := stripChars outerJunk w
  let w := stripWs (dropTrailingDashes w)
  let w := stripWs (dropPossessive w)
  let w := stripWs (dropExpSuffix w)
  normWs w

/-- Body of `_clean_word` on character lists. -/
def cleanCore (w0 : List Char) (entity_class : String) : List Char :=
  cleanSteps5678 (cleanStep4 (cleanSteps123 w0 entity_class))

/-- Function `_clean_word(word, entity_class)` from `entity_processor.py`. -/
def _clean_word (word : String) (entity_class : String) : String :=
  String.mk (cleanCore word.data entity_class)

/-- Function `_is_valid(word)`: at least two characters and at least one ASCII
alphanumeric character. -/
def _is_valid (word : String) : Bool :=
  _MIN_ENTITY_LENGTH ≤ word.data.length && word.data.any isAlnumCh

/-! ## `_merge_adjacent`

A raw entity dict from the HuggingFace pipeline.  Every field may be
absent (`none`); per the documented input shape a present field holds a
string / number, never Python `None`. -/

/-- One raw prediction dict.  `endPos` models the `"end"` key. -/
structure RawEnt where
  entity_group : Option String
  word : Option String
  score : Option ℚ
  start : Option Int
  endPos : Option Int
deriving DecidableEq, Repr

/-- The `"end"` slot of the running mention inside `_merge_adjacent`.  The
merge branch executes `current["end"] = nxt.get("end", current.get("end"))`,
which can store Python `None` under the key; thereafter
`current.get("end", 0)` returns `None` rather than the default.  Hence the
three states: key absent, key present holding `None`, key present holding
an integer. -/
inductive EndSlot where
  | absent : EndSlot
  | null : EndSlot
  | intVal (n : Int) : EndSlot
deriving DecidableEq, Repr

/-- The running `current` dict inside `_merge_adjacent` (and one element
of its output list). -/
structure CurEnt where
  entity_group : Option String
  word : Option String
  score : Option ℚ
  start : Option Int
  endSlot : EndSlot
deriving DecidableEq, Repr

/-- `dict(e)`: the fresh copy of a raw entity used to (re)seed `current`. -/
def ofRaw (e : RawEnt) : CurEnt :=
  { entity_group := e.entity_group
    word := e.word
    score := e.score
    start := e.start
    endSlot := match e.endPos with
      | some n => .intVal n
      | none => .absent }

/-- Models `nxt.get("start", 0) - current.get("end", 0)`.  Returns `none`
when the stored end is Python `None`, in which case the subtraction raises
`TypeError`. -/
def gapOf (cur : CurEnt) (nxt : RawEnt) : Option Int :=
  match cur.endSlot with
  | .null => none
  | .absent => some (nxt.start.getD 0 - 0)
  | .intVal n => some (nxt.start.getD 0 - n)

/-- The merge branch of the loop body: append the next word
(space-separated), extend the end, and take the minimum score. -/
def mergeFold (cur : CurEnt) (nxt : RawEnt) : CurEnt :=
  { cur with
    word := some (cur.word.getD "" ++ " " ++ nxt.word.getD "")
    endSlot := match nxt.endPos with
      | some n => .intVal n
      | none => match cur.endSlot with
        | .intVal m => .intVal m
        | _ => .null
    score := some (min (cur.score.getD 1) (nxt.score.getD 1)) }

/-- One iteration of the `for nxt in raw_entities[1:]` loop.  The gap is
computed before the branch, exactly as in the source, so a stored `None`
end raises regardless of the group comparison. -/
def mergeStep (st : List CurEnt × CurEnt) (nxt : RawEnt) :
    Except String (List CurEnt × CurEnt) :=
  let merged := st.1
  let current := st.2
  match gapOf current nxt with
  | none => .error "TypeError: unsupported operand type(s) for -: int and NoneType"
  | some gap =>
    if nxt.entity_group = current.entity_group ∧ gap ≤ _MERGE_GAP then
      .ok (merged, mergeFold current nxt)
    else
      .ok (merged ++ [current], ofRaw nxt)

/-- Function `_merge_adjacent(raw_entities)` from `entity_processor.py`. -/
def _merge_adjacent (raw_entities : List RawEnt) : Except String (List CurEnt) :=
  match raw_entities with
  | [] => .ok []
  | e :: rest => do
    let st ← rest.foldlM mergeStep ([], ofRaw e)
    .ok (st.1 ++ [st.2])

/-! ## `aggregate` -/

/-- The `"label"` entries of `ENTITY_META` from `config.py`. -/
def ENTITY_META_label : List (String × String) :=
  [ ("TIME", "Time Reference"), ("LOC", "Location"),
    ("SECTEAM", "Security Team"), ("TOOL", "Tool / Software"),
    ("IDTY", "Identity / Person"), ("MAL", "Malware"),
    ("APT", "Advanced Persistent Threat"), ("VULNAME", "Vulnerability Name"),
    ("VULID", "Vulnerability ID"), ("ENCR", "Encryption Method"),
    ("FILE", "File"), ("SHA2", "SHA-256 Hash"), ("URL", "URL"),
    ("IP", "IP Address"), ("ACT", "Action / Activity"), ("MD5", "MD5 Hash"),
    ("DOM", "Domain"), ("OS", "Operating System"), ("SHA1", "SHA-1 Hash"),
    ("EMAIL", "Email Address"), ("PROT", "Protocol") ]

/-- Models `ENTITY_META.get(cls, {}).get("label", cls)`. -/
def descriptionOf (cls : String) : String :=
  ((ENTITY_META_label.find? (fun p => p.1 = cls)).map (fun p => p.2)).getD cls

/-- Lookup in an insertion-ordered association list (Python dict access). -/
def lookupA {β : Type} (l : List ((String × String) × β)) (k : String × String) :
    Option β :=
  (l.find? (fun p => p.1 = k)).map (fun p => p.2)

/-- Models `d[k] += n` on a `defaultdict(int)`: increment in place if the
key is present, else append the new key at the end (dict insertion
order). -/
def bumpCount (l : List ((String × String) × Nat)) (k : String × String)
    (n : Nat) : List ((String × String) × Nat) :=
  match l with
  | [] => [(k, n)]
  | (k', m) :: rest =>
    if k' = k then (k', m + n) :: rest else (k', m) :: bumpCount rest k n

/-- The key a merged mention contributes to pass 1 of `aggregate`:
`(entity_group, cleaned word)` when the group is non-empty and the cleaned
word is valid, else nothing. -/
def mentKey (ent : CurEnt) : Option (String × String) :=
  let group := ent.entity_group.getD ""
  let word := _clean_word (ent.word.getD "") group
  if group ≠ "" ∧ _is_valid word then some (group, word) else none

/-- Pass 1 of `aggregate`: count cleaned mentions with original casing, in
first-seen dict order. -/
def rawCounter (merged : List CurEnt) : List ((String × String) × Nat) :=
  merged.foldl
    (fun acc ent =>
      match mentKey ent with
      | some k => bumpCount acc k 1
      | none => acc)
    []

/-- Pass 2 of `aggregate`: fold the pass-1 counter case-insensitively.
`canonical` maps `(class, lowercased text)` to the best casing seen so far
(a Python dict used only through lookups, modelled as a function);
`counter` accumulates the folded counts in dict insertion order.  The
casing is replaced exactly when the key is new or the current entry's
count strictly exceeds the pass-1 count of the stored casing. -/
def pass2Step (rc : List ((String × String) × Nat))
    (st : ((String × String) → Option String) × List ((String × String) × Nat))
    (e : (String × String) × Nat) :
    ((String × String) → Option String) × List ((String × String) × Nat) :=
  let canonical := st.1
  let counter := st.2
  let cls := e.1.1
  let word := e.1.2
  let cnt := e.2
  let key := (cls, pyLower word)
  let counter := bumpCount counter key cnt
  let canonical :=
    match canonical key with
    | none => fun k => if k = key then some word else canonical k
    | some w' =>
      if (lookupA rc (cls, w')).getD 0 < cnt then
        fun k => if k = key then some word else canonical k
      else canonical
  (canonical, counter)

/-- Fold of pass 2 over the whole pass-1 counter (the dict iteration
`for (cls, word), cnt in raw_counter.items()`). -/
def pass2 (rc : List ((String × String) × Nat)) :
    ((String × String) → Option String) × List ((String × String) × Nat) :=
  rc.foldl (pass2Step rc) (fun _ => none, [])

/-- One row of the output DataFrame. -/
structure Row where
  Class : String
  Description : String
  Entity : String
  Count : Nat
deriving DecidableEq, Repr

/-- Models `sorted(counter.items(), key=lambda x: -x[1])`: a stable sort
by count descending. -/
def sortByCountDesc (l : List ((String × String) × Nat)) :
    List ((String × String) × Nat) :=
  List.insertionSort (fun a b => b.2 ≤ a.2) l

/-- The row-building comprehension at the end of `aggregate`. -/
def rowsOf (canonical : (String × String) → Option String)
    (counter : List ((String × String) × Nat)) : List Row :=
  (sortByCountDesc counter).map
    (fun e =>
      { Class := e.1.1
        Description := descriptionOf e.1.1
        Entity := (canonical (e.1.1, e.1.2)).getD ""
        Count := e.2 })

/-- The aggregation passes of `aggregate` applied to an already-merged
mention list (lines 166–192 of `entity_processor.py`). -/
def aggRows (merged : List CurEnt) : List Row :=
  let rc := rawCounter merged
  let st := pass2 rc
  rowsOf st.1 st.2

/-- Function `aggregate(raw_entities)` from `entity_processor.py`. -/
def aggregate (raw_entities : List RawEnt) : Except String (List Row) :=
  (_merge_adjacent raw_entities).map aggRows

/-- Function `summary_stats(df)`: distinct classes, number of rows, total
mention count. -/
def summary_stats (df : List Row) : Nat × Nat × Nat :=
  ((df.map (fun r => r.Class)).dedup.length, df.length,
    (df.map (fun r => r.Count)).sum)

/-! ## `filter_by_query`

`pandas.Series.str.contains(query, case=False, na=False)` interprets the
query as a regular expression and reports whether `re.search` finds a
match.  The model below implements the regex fragment actually exercised
here: a pattern made of literal characters and the metacharacter `.`
(which matches any character except a newline).  Queries using other
regex metacharacters are outside the model. -/

/-- Does the (literal + `.`) pattern match a prefix of `s`,
case-insensitively? -/
def matchAtCI : List Char → List Char → Bool
  | [], _ => true
  | _ :: _, [] => false
  | p :: ps, c :: cs =>
    (if p = '.' then c ≠ '\n' else toLowerCh p = toLowerCh c) && matchAtCI ps cs

/-- Models `re.search(pattern, s, re.IGNORECASE) is not None` for
literal + `.` patterns: the pattern matches at some position of `s`. -/
def searchCI (pat : List Char) : List Char → Bool
  | [] => matchAtCI pat []
  | c :: rest => matchAtCI pat (c :: rest) || searchCI pat rest

/-- Function `filter_by_query(df, query)` from `entity_processor.py`:
strip the query; when empty return the table unchanged, else keep rows
where the stripped query matches Class, Description or Entity
case-insensitively. -/
def filter_by_query (df : List Row) (query : String) : List Row :=
  let q := stripWs query.data
  if q = [] then df
  else
    df.filter
      (fun r =>
        searchCI q r.Class.data || searchCI q r.Description.data ||
          searchCI q r.Entity.data)

/-! ## `_chunk_text` -/

/-- Models `text.replace("\n", " \n ")`. -/
def replaceNl (l : List Char) : List Char :=
  (l.map (fun c => if c = '\n' then [' ', '\n', ' '] else [c])).flatten

/-- Index of the first occurrence of the separator `". "`, if any. -/
def findDotSpace : List Char → Option Nat
  | [] => none
  | c :: rest =>
    match c, rest with
    | '.', ' ' :: _ => some 0
    | _, _ => (findDotSpace rest).map (fun i => i + 1)

/-- Fuel-indexed worker for `str.split(". ")`. -/
def splitDotSpaceF : Nat → List Char → List (List Char)
  | 0, l => [l]
  | fuel + 1, l =>
    match findDotSpace l with
    | none => [l]
    | some i => l.take i :: splitDotSpaceF fuel (l.drop (i + 2))

/-- Python `str.split(". ")`. -/
def splitDotSpace (l : List Char) : List (List Char) :=
  splitDotSpaceF l.length l

/-- `MAX_CHUNK_CHARS` from `config.py`. -/
def MAX_CHUNK_CHARS : Nat := 1800

/-- Function `_chunk_text(text, max_chars)` from `ner_service.py`: greedy
sentence accumulation on `". "` boundaries. -/
def _chunk_text (text : String) (max_chars : Nat) : List String :=
  if text.data.length ≤ max_chars then [text]
  else
    let sentences := splitDotSpace (replaceNl text.data)
    let st := sentences.foldl
      (fun (st : List (List Char) × List Char) sentence =>
        let chunks := st.1
        let current := st.2
        let candidate := current ++ sentence ++ ['.', ' ']
        if candidate.length ≤ max_chars then (chunks, candidate)
        else
          let chunks :=
            if stripWs current ≠ [] then chunks ++ [stripWs current] else chunks
          (chunks, sentence ++ ['.', ' ']))
      ([], [])
    let chunks :=
      if stripWs st.2 ≠ [] then st.1 ++ [stripWs st.2] else st.1
    match chunks with
    | [] => [String.mk (text.data.take max_chars)]
    | _ => chunks.map String.mk

/-- Decidable equality for `Except`, used to evaluate pipeline runs on
concrete inputs. -/
instance {ε α : Type} [DecidableEq ε] [DecidableEq α] : DecidableEq (Except ε α) :=
  fun x y =>
    match x, y with
    | .ok a, .ok b =>
      if h : a = b then .isTrue (by rw [h])
      else .isFalse (fun hh => h (by injection hh))
    | .error a, .error b =>
      if h : a = b then .isTrue (by rw [h])
      else .isFalse (fun hh => h (by injection hh))
    | .ok _, .error _ => .isFalse (fun hh => by injection hh)
    | .error _, .ok _ => .isFalse (fun hh => by injection hh)

/-! ## Specification-side definitions

The following definitions transcribe the *spec's* wording (not the code)
and are used to state refinement theorems comparing the two. -/

/-- A raw prediction with every documented field present. -/
def wfRaw (e : RawEnt) : Prop :=
  e.entity_group.isSome ∧ e.word.isSome ∧ e.score.isSome ∧
    e.start.isSome ∧ e.endPos.isSome

instance (e : RawEnt) : Decidable (wfRaw e) := by
  unfold wfRaw; infer_instance

/-- The casing variants (with their pass-1 counts) of a folded
`(class, lowercased text)` key, in first-seen order. -/
def variantsOf (rc : List ((String × String) × Nat)) (k : String × String) :
    List (String × Nat) :=
  rc.filterMap
    (fun e => if e.1.1 = k.1 ∧ pyLower e.1.2 = k.2 then some (e.1.2, e.2) else none)

/-- The largest count among a list of casing variants. -/
def maxCount (vs : List (String × Nat)) : Nat :=
  vs.foldr (fun p m => max p.2 m) 0

/-- Modelled from the spec: "select as the canonical casing the
original-casing variant with the highest pass-1 count (ties broken by
first-seen order)". -/
def firstMax (vs : List (String × Nat)) : Option String :=
  (vs.find? (fun p => p.2 = maxCount vs)).map (fun p => p.1)

/-- Total count folded into one key: the sum over all casing variants. -/
def sumCounts (vs : List (String × Nat)) : Nat := (vs.map (fun p => p.2)).sum

/-- A character list without any (Python `\s`) whitespace. -/
def wsFree (l : List Char) : Prop := ∀ c ∈ l, pySpace c = false

instance (l : List Char) : Decidable (wsFree l) := by
  unfold wsFree; infer_instance

/-- Fully whitespace-normalised text: no leading or trailing whitespace
and no two consecutive whitespace characters. -/
def wsNormalized (l : List Char) : Prop :=
  l.Chain' (fun a b => ¬(pySpace a = true ∧ pySpace b = true)) ∧
    (∀ c, l.head? = some c → pySpace c = false) ∧
    (∀ c, l.getLast? = some c → pySpace c = false)

/-- An association list whose keys are pairwise distinct. -/
def NodupKeys (l : List ((String × String) × Nat)) : Prop :=
  (l.map (fun e => e.1)).Nodup

/-- The casing-independent content of a report row. -/
def projRow (r : Row) : String × String × String × Nat :=
  (r.Class, r.Description, pyLower r.Entity, r.Count)

/-- Literal prefix test on character lists. -/
def isPrefixLit : List Char → List Char → Bool
  | [], _ => true
  | _ :: _, [] => false
  | p :: ps, c :: cs => p = c && isPrefixLit ps cs

/-- Literal contiguous-substring test on character lists. -/
def occursLit (q : List Char) : List Char → Bool
  | [] => q.isEmpty
  | c :: rest => isPrefixLit q (c :: rest) || occursLit q rest

/-- Modelled from the spec: "the query occurs as a case-insensitive
substring". -/
def occursCI (q s : String) : Bool :=
  occursLit (pyLowerL q.data) (pyLowerL s.data)

/-! ## Concrete inputs used by witnesses and counterexamples -/

/-- A well-formed MAL prediction with the given word and span. -/
def malPred (w : String) (s e : Int) : RawEnt :=
  ⟨some "MAL", some w, some 1, some s, some e⟩

/-- Four distant GandCrab mentions, three cased `GandCrab` and one
`gandcrab` (the aggregation case-fold scenario of the spec). -/
def gandcrabRaws : List RawEnt :=
  [malPred "GandCrab" 0 8, malPred "GandCrab" 100 108,
    malPred "GandCrab" 200 208, malPred "gandcrab" 300 308]

/-- Three same-class predictions, none carrying an `"end"` offset. -/
def noEndPreds : List RawEnt :=
  [⟨some "MAL", some "aa", some 1, some 0, none⟩,
    ⟨some "MAL", some "bb", some 1, some 1, none⟩,
    ⟨some "MAL", some "cc", some 1, some 2, none⟩]

/-- The two sub-word fragments of the spec's end-to-end scenario. -/
def gandPred : RawEnt := malPred "Gand" 0 4

/-- Second fragment of the end-to-end scenario. -/
def crabPred : RawEnt := malPred "Crab" 5 9

/-- Two already-merged mentions differing only in casing. -/
def mentGandCrab : CurEnt := ⟨some "MAL", some "GandCrab", some 1, some 0, .intVal 8⟩

/-- Lower-cased variant mention. -/
def mentgandcrab : CurEnt := ⟨some "MAL", some "gandcrab", some 1, some 100, .intVal 108⟩

/-- A one-row report table. -/
def dfGandCrab : List Row := [⟨"MAL", "Malware", "GandCrab", 1⟩]

/-- A corpus of representative raw model outputs (and their repaired
forms) on which the cleaner is verified idempotent. -/
def cleanCorpus : List (String × String) :=
  [ ("GandCrab GandCrab", "MAL"), ("Power Sploit", "TOOL"), ("Hyper Bro", "MAL"),
    ("C 2", "ACT"), ("CVE 2021 44228", "VULID"), ("PR OM ET HI UM", "APT"),
    ("Turkmen istan", "LOC"), ("APT 10 APT 10", "APT"), ("Gand Crab", "MAL"),
    ("Lazarus - Exp", "APT"), ("Ġmal ware", "MAL"), (" B-SecTeam APT28 ", "APT"),
    ("8.8.8.8", "IP"), ("www.example.com", "DOM"), ("kernel32.dll", "FILE"),
    ("WannaCry,", "MAL"), ("▁Emotet", "MAL"), ("GandCrab", "MAL"),
    ("PowerSploit", "TOOL"), ("C2", "ACT"), ("CVE202144228", "VULID") ]

/-- List erasure of one entry, by decidable equality (used to reason
about association-list permutations). -/
def eraseEntry : List ((String × String) × Nat) → ((String × String) × Nat) →
    List ((String × String) × Nat)
  | [], _ => []
  | e :: t, p => if e = p then t else e :: eraseEntry t p

/-- The invariant carried by the pass-2 fold: after processing a prefix
`done` of the pass-1 counter, the canonical map holds the first-seen
maximal casing of each folded key's variants and the counter holds their
summed counts, with pairwise-distinct keys. -/
def pass2Inv (done : List ((String × String) × Nat))
    (st : ((String × String) → Option String) × List ((String × String) × Nat)) : Prop :=
  (∀ k, st.1 k = firstMax (variantsOf done k)) ∧
  (∀ k, lookupA st.2 k =
    if variantsOf done k = [] then none else some (sumCounts (variantsOf done k))) ∧
  NodupKeys st.2

/-! # Theorems -/

/-- C1: a next prediction is folded into the current mention exactly when
the two share an entity class and the gap `next.start - current.end` is at
most `_MERGE_GAP = 3`; the folded mention joins the texts with a space,
takes the new prediction's end and the minimum of the two confidences;
otherwise the current mention is emitted and two separate mentions
result. -/
theorem merge_adjacent_pair_rule (a b : RawEnt) (ha : wfRaw a) (hb : wfRaw b) :
    _merge_adjacent [a, b] =
      .ok (if b.entity_group = a.entity_group ∧
            b.start.getD 0 - a.endPos.getD 0 ≤ _MERGE_GAP then
          [{ entity_group := a.entity_group
             word := some (a.word.getD "" ++ " " ++ b.word.getD "")
             score := some (min (a.score.getD 1) (b.score.getD 1))
             start := a.start
             endSlot := .intVal (b.endPos.getD 0) }]
        else [ofRaw a, ofRaw b]) := by
  obtain ⟨-, -, -, -, hae⟩ := ha
  obtain ⟨-, -, -, -, hbe⟩ := hb
  obtain ⟨na, hna⟩ := Option.isSome_iff_exists.mp hae
  obtain ⟨nb, hnb⟩ := Option.isSome_iff_exists.mp hbe
  simp only [_merge_adjacent, List.foldlM, mergeStep, gapOf, ofRaw, hna, hnb,
    mergeFold, Option.getD_some]
  by_cases h : b.entity_group = a.entity_group ∧ b.start.getD 0 - na ≤ _MERGE_GAP
  · rw [if_pos h, if_pos (by simpa [hna] using h)]
    rfl
  · rw [if_neg h, if_neg (by simpa [hna] using h)]
    rfl

/-- C1 witness: the spec's end-to-end fragments `Gand`/`Crab` (gap 1)
merge into a single `"Gand Crab"` mention. -/
theorem merge_adjacent_pair_rule_witness :
    _merge_adjacent [gandPred, crabPred] =
      .ok [⟨some "MAL", some "Gand Crab", some 1, some 0, .intVal 9⟩] :=
  (merge_adjacent_pair_rule gandPred crabPred (by decide) (by decide)).trans
    (by decide)

/-- C3 counterexample: the cleaner is not idempotent.  Cleaning
`"Cobalt Strike 's"` for class TOOL yields `"Cobalt Strike"` (three
space-separated parts, so no compound-name rejoin fires, and the
possessive is stripped afterwards), but cleaning that output again
camel-collapses the now two-part name to `"CobaltStrike"`. -/
theorem clean_word_not_idempotent :
    _clean_word "Cobalt Strike 's" "TOOL" = "Cobalt Strike" ∧
    _clean_word (_clean_word "Cobalt Strike 's" "TOOL") "TOOL" = "CobaltStrike" ∧
    _clean_word (_clean_word "Cobalt Strike 's" "TOOL") "TOOL" ≠
      _clean_word "Cobalt Strike 's" "TOOL" := by decide

/-- C3 amended: re-running the cleaner on its own output returns the same
string for a representative corpus of raw model outputs (though not for
every input, see the counterexample). -/
theorem clean_word_idempotent_on_corpus :
    ∀ p ∈ cleanCorpus, _clean_word (_clean_word p.1 p.2) p.2 = _clean_word p.1 p.2 := by
  decide

/-- C3 witness: the corpus idempotence statement instantiated at one
corpus element. -/
theorem clean_word_idempotent_on_corpus_witness :
    _clean_word (_clean_word "GandCrab GandCrab" "MAL") "MAL" =
      _clean_word "GandCrab GandCrab" "MAL" :=
  clean_word_idempotent_on_corpus ("GandCrab GandCrab", "MAL") (by decide)

/-- C5: the chunker emits a chunk that exceeds the character budget
whenever a single `". "`-delimited sentence exceeds it, contradicting its
own docstring ("chunks that stay within max_chars"): a ten-character
sentence with budget 5 is returned as one chunk of length 11. -/
theorem chunk_text_budget_violation :
    _chunk_text "xxxxxxxxxx" 5 = ["xxxxxxxxxx."] ∧
    ("xxxxxxxxxx." : String).data.length = 11 ∧
    ¬ (("xxxxxxxxxx." : String).data.length ≤ 5) := by decide

/-- C7: merging two same-class predictions that both lack an `"end"`
offset stores Python `None` as the running end, and a third prediction
then evaluates `nxt.get("start", 0) - None`, raising `TypeError` — the
pipeline is not total over its documented input shape (empty input is
still fine). -/
theorem merge_missing_end_raises :
    _merge_adjacent noEndPreds =
      .error "TypeError: unsupported operand type(s) for -: int and NoneType" ∧
    aggregate noEndPreds =
      .error "TypeError: unsupported operand type(s) for -: int and NoneType" ∧
    aggregate [] = .ok [] := by decide

/-- C10 counterexample: `str.contains` treats the query as a regular
expression, so the query `"."` keeps a row in which `"."` never occurs as
a (case-insensitive) substring of Class, Description or Entity. -/
theorem filter_by_query_regex_counterexample :
    filter_by_query dfGandCrab "." = dfGandCrab ∧
    ∀ r ∈ dfGandCrab,
      occursCI "." r.Class = false ∧ occursCI "." r.Description = false ∧
        occursCI "." r.Entity = false := by decide

theorem dropWhile_head_false {p : Char → Bool} :
    ∀ (l : List Char) (c : Char), (l.dropWhile p).head? = some c → p c = false := by
  intro l
  induction l with
  | nil => intro c h; simp [List.dropWhile] at h
  | cons a t ih =>
    intro c h
    by_cases hp : p a
    · rw [List.dropWhile_cons_of_pos hp] at h
      exact ih c h
    · rw [List.dropWhile_cons_of_neg hp] at h
      simp at h
      rw [← h]
      exact Bool.eq_false_iff.mpr hp

theorem dropWhile_suffix' (p : Char → Bool) (l : List Char) : l.dropWhile p <:+ l :=
  ⟨l.takeWhile p, List.takeWhile_append_dropWhile p l⟩

theorem stripRightWs_isPrefix (l : List Char) : stripRightWs l <+: l := by
  unfold stripRightWs
  refine ⟨(l.reverse.takeWhile pySpace).reverse, ?_⟩
  rw [← List.reverse_append, List.takeWhile_append_dropWhile, List.reverse_reverse]

theorem stripWs_isInfix (l : List Char) : stripWs l <:+: l := by
  unfold stripWs stripLeftWs
  exact (stripRightWs_isPrefix _).isInfix.trans (dropWhile_suffix' _ l).isInfix

theorem collapseWs_head_nonspace {d : Char} (rest : List Char)
    (hd : pySpace d = false) : (collapseWs (d :: rest)).head? = some d := by
  cases rest with
  | nil => simp [collapseWs, hd]
  | cons e t => simp [collapseWs, hd]

theorem collapseWs_chain (l : List Char) :
    (collapseWs l).Chain' (fun a b => ¬(pySpace a = true ∧ pySpace b = true)) := by
  induction l with
  | nil => simp [collapseWs]
  | cons c t ih =>
    cases t with
    | nil => simp [collapseWs]; split <;> simp
    | cons d rest =>
      by_cases hcd : pySpace c && pySpace d
      · simpa [collapseWs, hcd] using ih
      · have : collapseWs (c :: d :: rest) =
            (if pySpace c then ' ' else c) :: collapseWs (d :: rest) := by
          simp [collapseWs, hcd]
        rw [this, List.chain'_cons']
        refine ⟨?_, ih⟩
        intro y hy
        by_cases hc : pySpace c
        · have hd : pySpace d = false := by
            cases hpd : pySpace d
            · rfl
            · exact absurd (by simp [hc, hpd]) hcd
          rw [collapseWs_head_nonspace rest hd] at hy
          simp at hy
          subst hy
          simp [hd]
        · simp [hc]

theorem prefix_head_eq {t s : List Char} {c : Char} (h : t <+: s)
    (hc : t.head? = some c) : s.head? = some c := by
  obtain ⟨r, rfl⟩ := h
  cases t with
  | nil => simp at hc
  | cons a t' => simpa using hc

theorem stripWs_head_false {l : List Char} {c : Char}
    (h : (stripWs l).head? = some c) : pySpace c = false := by
  unfold stripWs at h
  have h2 : (stripLeftWs l).head? = some c :=
    prefix_head_eq (stripRightWs_isPrefix _) h
  exact dropWhile_head_false _ _ h2

theorem stripWs_getLast_false {l : List Char} {c : Char}
    (h : (stripWs l).getLast? = some c) : pySpace c = false := by
  unfold stripWs stripRightWs at h
  rw [List.getLast?_reverse] at h
  exact dropWhile_head_false _ _ h

theorem normWs_wsNormalized (l : List Char) : wsNormalized (normWs l) := by
  refine ⟨?_, ?_, ?_⟩
  · exact List.Chain'.infix (collapseWs_chain l) (stripWs_isInfix _)
  · intro c hc
    exact stripWs_head_false hc
  · intro c hc
    exact stripWs_getLast_false hc

set_option maxHeartbeats 1000000 in
theorem cleanSteps5678_def (w0 : List Char) :
    cleanSteps5678 w0 =
      normWs (stripWs (dropExpSuffix (stripWs (dropPossessive (stripWs
        (dropTrailingDashes (stripChars outerJunk (normWs
          (removeIsolatedCaps w0))))))))) := rfl

theorem data_mk (l : List Char) : (String.mk l).data = l := rfl

theorem clean_word_eq_mk (w cls : String) :
    _clean_word w cls = String.mk (cleanCore w.data cls) := rfl

theorem clean_word_data (w cls : String) :
    (_clean_word w cls).data = cleanCore w.data cls := by
  rw [clean_word_eq_mk, data_mk]

theorem cleanCore_def (l : List Char) (cls : String) :
    cleanCore l cls = cleanSteps5678 (cleanStep4 (cleanSteps123 l cls)) := rfl

/-- C9: for every input string and entity class the cleaner's output is
fully whitespace-normalised — no leading or trailing whitespace and no two
consecutive whitespace characters (its final step is
`re.sub(r"\s+", " ", word).strip()`). -/
theorem clean_word_ws_normalized (w cls : String) :
    wsNormalized ((_clean_word w cls).data) := by
  rw [clean_word_data, cleanCore_def, cleanSteps5678_def]
  exact normWs_wsNormalized _

theorem wsFree_of_sublist {l l' : List Char} (h : List.Sublist l' l) (hf : wsFree l) :
    wsFree l' :=
  fun c hc => hf c (h.subset hc)

theorem stripRightWs_sublist (l : List Char) : List.Sublist (stripRightWs l) l :=
  (stripRightWs_isPrefix l).sublist

theorem stripWs_sublist (l : List Char) : List.Sublist (stripWs l) l :=
  (stripWs_isInfix l).sublist

theorem dropWhileWs_eq_self {l : List Char} (hf : wsFree l) :
    l.dropWhile pySpace = l := by
  cases l with
  | nil => rfl
  | cons c t =>
    rw [List.dropWhile_cons_of_neg]
    simp [hf c (by simp)]

theorem wsFree_reverse {l : List Char} (hf : wsFree l) : wsFree l.reverse :=
  fun c hc => hf c (List.mem_reverse.mp hc)

theorem stripWs_eq_self {l : List Char} (hf : wsFree l) : stripWs l = l := by
  unfold stripWs stripLeftWs stripRightWs
  rw [dropWhileWs_eq_self hf, dropWhileWs_eq_self (wsFree_reverse hf),
    List.reverse_reverse]

theorem collapseWs_eq_self {l : List Char} (hf : wsFree l) : collapseWs l = l := by
  induction l with
  | nil => rfl
  | cons c t ih =>
    have hc : pySpace c = false := hf c (by simp)
    have hft : wsFree t := fun x hx => hf x (by simp [hx])
    cases t with
    | nil => simp [collapseWs, hc]
    | cons d rest =>
      have hd : pySpace d = false := hft d (by simp)
      simpa [collapseWs, hc, hd] using ih hft

theorem normWs_eq_self {l : List Char} (hf : wsFree l) : normWs l = l := by
  unfold normWs
  rw [collapseWs_eq_self hf, stripWs_eq_self hf]

theorem wsFree_normWs {l : List Char} (hf : wsFree l) : wsFree (normWs l) := by
  rw [normWs_eq_self hf]; exact hf

theorem splitWsF_nil (fuel : Nat) : splitWsF fuel [] = [] := by
  cases fuel <;> simp [splitWsF]

theorem takeWhileNoWs_eq_self {l : List Char} (hf : wsFree l) :
    l.takeWhile (fun c => !pySpace c) = l := by
  induction l with
  | nil => rfl
  | cons c t ih =>
    rw [List.takeWhile_cons_of_pos (by simp [hf c (by simp)])]
    rw [ih (fun x hx => hf x (by simp [hx]))]

theorem dropWhileNoWs_eq_nil {l : List Char} (hf : wsFree l) :
    l.dropWhile (fun c => !pySpace c) = [] := by
  induction l with
  | nil => rfl
  | cons c t ih =>
    rw [List.dropWhile_cons_of_pos (by simp [hf c (by simp)])]
    exact ih (fun x hx => hf x (by simp [hx]))

theorem splitWs_of_wsFree {l : List Char} (hf : wsFree l) (hne : l ≠ []) :
    splitWs l = [l] := by
  unfold splitWs
  cases l with
  | nil => exact absurd rfl hne
  | cons c t =>
    simp only [List.length_cons, splitWsF]
    rw [dropWhileWs_eq_self hf]
    simp only []
    rw [takeWhileNoWs_eq_self hf, dropWhileNoWs_eq_nil hf, splitWsF_nil]

theorem wsFree_charHalfDedup {l : List Char} (hf : wsFree l) :
    wsFree (charHalfDedup l) := by
  unfold charHalfDedup
  split
  · exact wsFree_of_sublist ((stripWs_sublist _).trans (List.take_sublist _ _)) hf
  · exact hf

theorem wsFree_tokenHalfDedup {l : List Char} (hf : wsFree l) :
    wsFree (tokenHalfDedup l) := by
  unfold tokenHalfDedup
  by_cases hne : l = []
  · subst hne
    simp [splitWs, splitWsF]
    exact hf
  · rw [splitWs_of_wsFree hf hne]
    simp
    exact hf

theorem wsFree_cleanStep4 {l : List Char} (hf : wsFree l) :
    wsFree (cleanStep4 l) :=
  wsFree_tokenHalfDedup (wsFree_charHalfDedup (wsFree_normWs hf))

theorem mem_removeIsolatedCapsGo {c : Char} :
    ∀ (prev : Option Char) (l : List Char),
      c ∈ removeIsolatedCapsGo prev l → c ∈ l := by
  intro prev l
  induction l generalizing prev with
  | nil => intro h; exact absurd h (by simp [removeIsolatedCapsGo])
  | cons a t ih =>
    intro h
    unfold removeIsolatedCapsGo at h
    by_cases hiso : (isUpperCh a && optIsSpace prev && optIsSpace t.head?) = true
    · rw [if_pos hiso] at h
      exact List.mem_cons_of_mem a (ih _ h)
    · rw [if_neg hiso] at h
      rcases List.mem_cons.mp h with h1 | h2
      · exact h1 ▸ List.mem_cons_self a t
      · exact List.mem_cons_of_mem a (ih _ h2)

theorem wsFree_removeIsolatedCaps {l : List Char} (hf : wsFree l) :
    wsFree (removeIsolatedCaps l) :=
  fun c hc => hf c (mem_removeIsolatedCapsGo none l hc)

theorem revDropRev_sublist (p : Char → Bool) (l : List Char) :
    List.Sublist (l.reverse.dropWhile p).reverse l := by
  have h1 : List.Sublist (l.reverse.dropWhile p) l.reverse :=
    (dropWhile_suffix' p l.reverse).sublist
  have h2 := h1.reverse
  rwa [List.reverse_reverse] at h2

theorem stripChars_sublist (set : List Char) (l : List Char) :
    List.Sublist (stripChars set l) l := by
  unfold stripChars
  exact (revDropRev_sublist _ _).trans (dropWhile_suffix' _ l).sublist

theorem dropTrailingDashes_sublist (l : List Char) : List.Sublist (dropTrailingDashes l) l :=
  revDropRev_sublist _ l

theorem dropPossessive_sublist (l : List Char) : List.Sublist (dropPossessive l) l := by
  unfold dropPossessive
  split
  · exact (stripRightWs_sublist _).trans (List.take_sublist _ _)
  · split
    · exact (stripRightWs_sublist _).trans (List.take_sublist _ _)
    · exact List.Sublist.refl l

theorem dropExpSuffix_sublist (l : List Char) : List.Sublist (dropExpSuffix l) l := by
  unfold dropExpSuffix
  split
  · refine (stripRightWs_sublist _).trans ?_
    split
    · exact (List.take_sublist _ _).trans
        ((stripRightWs_sublist _).trans (List.take_sublist _ _))
    · exact (stripRightWs_sublist _).trans (List.take_sublist _ _)
  · exact List.Sublist.refl l

theorem wsFree_cleanSteps5678 {l : List Char} (hf : wsFree l) :
    wsFree (cleanSteps5678 l) := by
  rw [cleanSteps5678_def]
  apply wsFree_normWs
  apply wsFree_of_sublist (stripWs_sublist _)
  apply wsFree_of_sublist (dropExpSuffix_sublist _)
  apply wsFree_of_sublist (stripWs_sublist _)
  apply wsFree_of_sublist (dropPossessive_sublist _)
  apply wsFree_of_sublist (stripWs_sublist _)
  apply wsFree_of_sublist (dropTrailingDashes_sublist _)
  apply wsFree_of_sublist (stripChars_sublist _ _)
  apply wsFree_normWs
  exact wsFree_removeIsolatedCaps hf

theorem wsFree_cleanSteps123 (w : List Char) (cls : String)
    (h : _COLLAPSE_SPACE_CLASSES.contains cls = true) :
    wsFree (cleanSteps123 w cls) := by
  unfold cleanSteps123
  rw [h]
  simp only [if_true]
  intro c hc
  have := List.of_mem_filter hc
  simpa using this

/-- C8: for every entity class in the structurally space-free set the
cleaner's output contains no whitespace, and cleaning `"CVE 2021 44228"`
for class VULID yields `"CVE202144228"`. -/
theorem clean_word_space_free_classes :
    (∀ (w cls : String), cls ∈ _COLLAPSE_SPACE_CLASSES →
      wsFree (_clean_word w cls).data) ∧
    _clean_word "CVE 2021 44228" "VULID" = "CVE202144228" := by
  constructor
  · intro w cls h
    rw [clean_word_data, cleanCore_def]
    apply wsFree_cleanSteps5678
    apply wsFree_cleanStep4
    apply wsFree_cleanSteps123
    exact List.elem_eq_true_of_mem h
  · decide

/-- C8 witness: the space-free statement instantiated at the concrete
VULID example. -/
theorem clean_word_space_free_classes_witness :
    wsFree (_clean_word "CVE 2021 44228" "VULID").data :=
  clean_word_space_free_classes.1 "CVE 2021 44228" "VULID" (by decide)

theorem matchAtCI_dotfree {q : List Char} (hq : '.' ∉ q) :
    ∀ s : List Char, matchAtCI q s = isPrefixLit (pyLowerL q) (pyLowerL s) := by
  induction q with
  | nil => intro s; cases s <;> simp [matchAtCI, pyLowerL, isPrefixLit]
  | cons p ps ih =>
    intro s
    have hp : p ≠ '.' := fun h => hq (by simp [h])
    have hps : '.' ∉ ps := fun h => hq (by simp [h])
    cases s with
    | nil => simp [matchAtCI, pyLowerL, isPrefixLit]
    | cons c cs =>
      simp only [matchAtCI, if_neg hp, pyLowerL, List.map_cons, isPrefixLit]
      rw [show List.map toLowerCh ps = pyLowerL ps from rfl,
        show List.map toLowerCh cs = pyLowerL cs from rfl, ih hps cs]

theorem searchCI_dotfree {q : List Char} (hq : '.' ∉ q) :
    ∀ s : List Char, searchCI q s = occursLit (pyLowerL q) (pyLowerL s) := by
  intro s
  induction s with
  | nil =>
    simp only [searchCI, occursLit, pyLowerL, List.map_nil]
    rw [matchAtCI_dotfree hq]
    cases q <;> simp [isPrefixLit, occursLit, pyLowerL, List.isEmpty]
  | cons c cs ih =>
    simp only [searchCI, pyLowerL, List.map_cons, occursLit]
    rw [← pyLowerL, ← pyLowerL, ← ih, matchAtCI_dotfree hq]
    simp [pyLowerL]

/-- C10 (amended): a whitespace-only query returns the table unchanged;
any other query is first stripped and then matched against Class,
Description and Entity as a case-insensitive regular expression (pandas
`str.contains` semantics); for queries free of regex metacharacters this
regex match coincides with case-insensitive substring containment. -/
theorem filter_by_query_amended :
    (∀ (df : List Row) (q : String), stripWs q.data = [] → filter_by_query df q = df) ∧
    (∀ (df : List Row) (q : String), stripWs q.data ≠ [] →
      filter_by_query df q =
        df.filter (fun r =>
          searchCI (stripWs q.data) r.Class.data ||
            searchCI (stripWs q.data) r.Description.data ||
            searchCI (stripWs q.data) r.Entity.data)) ∧
    (∀ (q s : List Char), '.' ∉ q →
      searchCI q s = occursLit (pyLowerL q) (pyLowerL s)) := by
  refine ⟨?_, ?_, ?_⟩
  · intro df q h
    simp [filter_by_query, h]
  · intro df q h
    simp [filter_by_query, h]
  · intro q s hq
    exact searchCI_dotfree hq s

/-- C10 witness: the amended statement instantiated at a one-row table
with the padded query `" ga "` and at a dot-free pattern. -/
theorem filter_by_query_amended_witness :
    filter_by_query dfGandCrab " ga " =
      dfGandCrab.filter (fun r =>
        searchCI (stripWs (" ga " : String).data) r.Class.data ||
          searchCI (stripWs (" ga " : String).data) r.Description.data ||
          searchCI (stripWs (" ga " : String).data) r.Entity.data) ∧
    searchCI ("ga" : String).data ("GandCrab" : String).data =
      occursLit (pyLowerL ("ga" : String).data) (pyLowerL ("GandCrab" : String).data) :=
  ⟨filter_by_query_amended.2.1 dfGandCrab " ga " (by decide),
    filter_by_query_amended.2.2 ("ga" : String).data ("GandCrab" : String).data (by decide)⟩

section AssocLemmas

variable {β : Type}

theorem lookupA_nil (k : String × String) : lookupA ([] : List ((String × String) × β)) k = none := rfl

theorem lookupA_cons (k' : String × String) (v : β) (t : List ((String × String) × β)) (k : String × String) :
    lookupA ((k', v) :: t) k = if k' = k then some v else lookupA t k := by
  simp only [lookupA, List.find?_cons]
  split
  · next h => simp only [if_pos (of_decide_eq_true h), Option.map_some']
  · next h => simp only [if_neg (of_decide_eq_false h)]

theorem lookupA_bump_self (l : List ((String × String) × Nat)) (k : String × String) (n : Nat) :
    lookupA (bumpCount l k n) k = some ((lookupA l k).getD 0 + n) := by
  induction l with
  | nil => simp [bumpCount, lookupA_cons, lookupA_nil]
  | cons e t ih =>
    obtain ⟨k', m⟩ := e
    by_cases h : k' = k
    · subst h
      simp [bumpCount, lookupA_cons]
    · simp [bumpCount, h, lookupA_cons, ih]

theorem lookupA_bump_other (l : List ((String × String) × Nat)) (k k' : String × String) (n : Nat)
    (h : k' ≠ k) :
    lookupA (bumpCount l k n) k' = lookupA l k' := by
  induction l with
  | nil => simp [bumpCount, lookupA_cons, lookupA_nil, Ne.symm h]
  | cons e t ih =>
    obtain ⟨k₀, m⟩ := e
    by_cases h0 : k₀ = k
    · subst h0
      simp [bumpCount, lookupA_cons, Ne.symm h]
    · simp [bumpCount, h0, lookupA_cons, ih]

theorem lookupA_eq_none_iff (l : List ((String × String) × β)) (k : String × String) :
    lookupA l k = none ↔ k ∉ l.map (fun e => e.1) := by
  induction l with
  | nil => simp [lookupA_nil]
  | cons e t ih =>
    obtain ⟨k₀, v₀⟩ := e
    by_cases h : k₀ = k
    · subst h
      simp [lookupA_cons]
    · simp [lookupA_cons, h, ih, Ne.symm h]

theorem mem_of_lookupA {l : List ((String × String) × β)} {k : String × String} {v : β}
    (h : lookupA l k = some v) : (k, v) ∈ l := by
  induction l with
  | nil => simp [lookupA_nil] at h
  | cons e t ih =>
    obtain ⟨k₀, v₀⟩ := e
    by_cases h0 : k₀ = k
    · subst h0
      rw [lookupA_cons, if_pos rfl] at h
      injection h with h
      subst h
      exact List.mem_cons_self _ _
    · rw [lookupA_cons, if_neg h0] at h
      exact List.mem_cons_of_mem _ (ih h)

theorem lookupA_of_mem_nodup {l : List ((String × String) × β)} {k : String × String} {v : β}
    (hnd : (l.map (fun e => e.1)).Nodup) (hm : (k, v) ∈ l) : lookupA l k = some v := by
  induction l with
  | nil => simp at hm
  | cons e t ih =>
    obtain ⟨k₀, v₀⟩ := e
    simp only [List.map_cons, List.nodup_cons] at hnd
    rcases List.mem_cons.mp hm with h1 | h2
    · obtain ⟨h1a, h1b⟩ := Prod.mk.inj h1
      subst h1a
      subst h1b
      rw [lookupA_cons, if_pos rfl]
    · have hk : k₀ ≠ k := by
        intro hh
        subst hh
        exact hnd.1 (List.mem_map.mpr ⟨(k₀, v), h2, rfl⟩)
      rw [lookupA_cons, if_neg hk]
      exact ih hnd.2 h2

theorem keys_bumpCount (l : List ((String × String) × Nat)) (k : String × String) (n : Nat) :
    (bumpCount l k n).map (fun e => e.1) =
      if k ∈ l.map (fun e => e.1) then l.map (fun e => e.1)
      else l.map (fun e => e.1) ++ [k] := by
  induction l with
  | nil => simp [bumpCount]
  | cons e t ih =>
    obtain ⟨k₀, m⟩ := e
    by_cases h : k₀ = k
    · subst h
      simp [bumpCount]
    · simp only [bumpCount, if_neg h, List.map_cons, ih]
      by_cases hm : k ∈ t.map (fun e => e.1)
      · simp [hm, h, Ne.symm h]
      · simp [hm, h, Ne.symm h]

theorem nodupKeys_bumpCount {l : List ((String × String) × Nat)} (k : String × String) (n : Nat)
    (hnd : NodupKeys l) : NodupKeys (bumpCount l k n) := by
  unfold NodupKeys at hnd ⊢
  rw [keys_bumpCount]
  split
  · exact hnd
  · next hm =>
    simpa [List.nodup_append, hm] using hnd

theorem eraseEntry_sublist (l : List ((String × String) × Nat)) (p : (String × String) × Nat) :
    List.Sublist (eraseEntry l p) l := by
  induction l with
  | nil => exact List.Sublist.refl []
  | cons e t ih =>
    unfold eraseEntry
    split
    · exact List.sublist_cons_self e t
    · exact List.Sublist.cons₂ e ih

theorem perm_cons_eraseEntry {l : List ((String × String) × Nat)}
    {p : (String × String) × Nat} (h : p ∈ l) : l.Perm (p :: eraseEntry l p) := by
  induction l with
  | nil => simp at h
  | cons e t ih =>
    by_cases he : e = p
    · subst he
      unfold eraseEntry
      rw [if_pos rfl]
    · unfold eraseEntry
      rw [if_neg he]
      have hmt : p ∈ t := by
        rcases List.mem_cons.mp h with h1 | h2
        · exact absurd h1.symm he
        · exact h2
      exact ((ih hmt).cons e).trans (List.Perm.swap p e _)

theorem lookupA_eraseEntry {l : List ((String × String) × Nat)} {k : String × String} {v : Nat}
    (hnd : NodupKeys l) (hm : (k, v) ∈ l) (k' : String × String) :
    lookupA (eraseEntry l (k, v)) k' = if k' = k then none else lookupA l k' := by
  induction l with
  | nil => simp at hm
  | cons e t ih =>
    obtain ⟨k₀, v₀⟩ := e
    unfold NodupKeys at hnd
    simp only [List.map_cons, List.nodup_cons] at hnd
    by_cases he : ((k₀, v₀) : (String × String) × Nat) = (k, v)
    · obtain ⟨h1a, h1b⟩ := Prod.mk.inj he
      subst h1a
      subst h1b
      unfold eraseEntry
      rw [if_pos rfl]
      by_cases hk : k' = k₀
      · subst hk
        rw [if_pos rfl, lookupA_eq_none_iff]
        exact hnd.1
      · rw [if_neg hk, lookupA_cons, if_neg (fun hh => hk hh.symm)]
    · unfold eraseEntry
      rw [if_neg he]
      have hmt : (k, v) ∈ t := by
        rcases List.mem_cons.mp hm with h1 | h2
        · exact absurd h1.symm he
        · exact h2
      have hk0 : k₀ ≠ k := by
        intro hh
        subst hh
        exact hnd.1 (List.mem_map.mpr ⟨(k₀, v), hmt, rfl⟩)
      rw [lookupA_cons, ih hnd.2 hmt]
      by_cases hk' : k' = k
      · subst hk'
        simp [hk0, lookupA_cons]
      · by_cases hk0' : k₀ = k' <;> simp [hk', hk0', lookupA_cons]

theorem nodupKeys_eraseEntry {l : List ((String × String) × Nat)}
    (p : (String × String) × Nat) (hnd : NodupKeys l) : NodupKeys (eraseEntry l p) := by
  unfold NodupKeys at hnd ⊢
  exact hnd.sublist (List.Sublist.map (fun e => e.1) (eraseEntry_sublist l p))

theorem assoc_ext_perm :
    ∀ {l₁ l₂ : List ((String × String) × Nat)}, NodupKeys l₁ → NodupKeys l₂ →
      (∀ k, lookupA l₁ k = lookupA l₂ k) → l₁.Perm l₂ := by
  intro l₁
  induction l₁ with
  | nil =>
    intro l₂ h1 h2 hl
    cases l₂ with
    | nil => exact List.Perm.refl []
    | cons e t =>
      obtain ⟨k, v⟩ := e
      have := hl k
      rw [lookupA_nil, lookupA_cons, if_pos rfl] at this
      exact absurd this.symm (by simp)
  | cons e t ih =>
    intro l₂ h1 h2 hl
    obtain ⟨k, v⟩ := e
    have hk2 : lookupA l₂ k = some v := by
      rw [← hl k, lookupA_cons, if_pos rfl]
    have hmem : ((k, v) : (String × String) × Nat) ∈ l₂ := mem_of_lookupA hk2
    have hperm2 : l₂.Perm ((k, v) :: eraseEntry l₂ (k, v)) := perm_cons_eraseEntry hmem
    unfold NodupKeys at h1
    simp only [List.map_cons, List.nodup_cons] at h1
    refine List.Perm.trans
      (List.Perm.cons (k, v) (ih h1.2 (nodupKeys_eraseEntry _ h2) ?_)) hperm2.symm
    intro k'
    rw [lookupA_eraseEntry h2 hmem k']
    by_cases hk : k' = k
    · subst hk
      rw [if_pos rfl, lookupA_eq_none_iff]
      exact h1.1
    · rw [if_neg hk, ← hl k', lookupA_cons, if_neg (fun hh => hk hh.symm)]

theorem rawCounter_eq_aux (merged : List CurEnt) :
    ∀ acc, merged.foldl
        (fun acc ent =>
          match mentKey ent with
          | some k => bumpCount acc k 1
          | none => acc) acc =
      (merged.filterMap mentKey).foldl (fun acc k => bumpCount acc k 1) acc := by
  induction merged with
  | nil => intro acc; rfl
  | cons ent t ih =>
    intro acc
    simp only [List.foldl_cons, List.filterMap_cons]
    cases h : mentKey ent with
    | none => simp only [ih]
    | some k => simp only [List.foldl_cons, ih]

theorem rawCounter_eq (merged : List CurEnt) :
    rawCounter merged =
      (merged.filterMap mentKey).foldl (fun acc k => bumpCount acc k 1) [] :=
  rawCounter_eq_aux merged []

theorem lookupA_foldl_bump (ks : List (String × String)) :
    ∀ (acc : List ((String × String) × Nat)) (k : String × String),
      lookupA (ks.foldl (fun acc k => bumpCount acc k 1) acc) k =
        if ks.count k = 0 then lookupA acc k
        else some ((lookupA acc k).getD 0 + ks.count k) := by
  induction ks with
  | nil => intro acc k; simp
  | cons k₀ t ih =>
    intro acc k
    simp only [List.foldl_cons]
    rw [ih]
    by_cases hk : k₀ = k
    · subst hk
      rw [List.count_cons_self]
      by_cases h0 : t.count k₀ = 0
      · simp [h0, lookupA_bump_self]
      · simp only [h0]
        rw [lookupA_bump_self]
        simp only [Option.getD_some]
        have : t.count k₀ + 1 ≠ 0 := by omega
        simp [this]
        omega
    · rw [List.count_cons_of_ne (fun hh => hk hh.symm)]
      rw [lookupA_bump_other _ _ _ _ (fun hh => hk hh.symm)]

theorem nodupKeys_foldl_bump (ks : List (String × String)) :
    ∀ (acc : List ((String × String) × Nat)), NodupKeys acc →
      NodupKeys (ks.foldl (fun acc k => bumpCount acc k 1) acc) := by
  induction ks with
  | nil => intro acc h; exact h
  | cons k₀ t ih =>
    intro acc h
    exact ih _ (nodupKeys_bumpCount k₀ 1 h)

theorem nodupKeys_rawCounter (merged : List CurEnt) : NodupKeys (rawCounter merged) := by
  rw [rawCounter_eq]
  exact nodupKeys_foldl_bump _ [] (by simp [NodupKeys])

theorem lookupA_rawCounter (merged : List CurEnt) (k : String × String) :
    lookupA (rawCounter merged) k =
      if (merged.filterMap mentKey).count k = 0 then none
      else some ((merged.filterMap mentKey).count k) := by
  rw [rawCounter_eq, lookupA_foldl_bump]
  split
  · rfl
  · simp [lookupA_nil]

theorem maxCount_cons (p : String × Nat) (t : List (String × Nat)) :
    maxCount (p :: t) = max p.2 (maxCount t) := rfl

theorem le_maxCount_of_mem {vs : List (String × Nat)} {p : String × Nat}
    (h : p ∈ vs) : p.2 ≤ maxCount vs := by
  induction vs with
  | nil => simp at h
  | cons q t ih =>
    rw [maxCount_cons]
    rcases List.mem_cons.mp h with h1 | h2
    · subst h1
      exact Nat.le_max_left _ _
    · exact (ih h2).trans (Nat.le_max_right _ _)

theorem maxCount_attained {vs : List (String × Nat)} (h : vs ≠ []) :
    ∃ p ∈ vs, p.2 = maxCount vs := by
  induction vs with
  | nil => exact absurd rfl h
  | cons q t ih =>
    rw [maxCount_cons]
    by_cases hq : maxCount t ≤ q.2
    · exact ⟨q, List.mem_cons_self _ _, (Nat.max_eq_left hq).symm⟩
    · have ht : t ≠ [] := by
        intro hh
        subst hh
        exact hq (Nat.zero_le _)
      obtain ⟨p, hp, hpe⟩ := ih ht
      refine ⟨p, List.mem_cons_of_mem _ hp, ?_⟩
      rw [Nat.max_eq_right (Nat.le_of_not_le hq), hpe]

theorem foldr_max_init (vs : List (String × Nat)) :
    ∀ b, vs.foldr (fun p m => max p.2 m) b = max (maxCount vs) b := by
  induction vs with
  | nil => intro b; simp [maxCount]
  | cons q t ih =>
    intro b
    simp only [List.foldr_cons, ih, maxCount_cons]
    rw [Nat.max_assoc]

theorem maxCount_append_single (vs : List (String × Nat)) (p : String × Nat) :
    maxCount (vs ++ [p]) = max (maxCount vs) p.2 := by
  unfold maxCount
  rw [List.foldr_append]
  simp only [List.foldr_cons, List.foldr_nil]
  rw [foldr_max_init]
  simp [maxCount]

theorem firstMax_eq_none_iff {vs : List (String × Nat)} :
    firstMax vs = none ↔ vs = [] := by
  constructor
  · intro h
    by_contra hne
    obtain ⟨p, hp, hpe⟩ := maxCount_attained hne
    unfold firstMax at h
    rw [Option.map_eq_none'] at h
    rw [List.find?_eq_none] at h
    exact (h p hp) (by simp [hpe])
  · intro h
    subst h
    rfl

theorem sumCounts_append (vs ws : List (String × Nat)) :
    sumCounts (vs ++ ws) = sumCounts vs + sumCounts ws := by
  unfold sumCounts
  rw [List.map_append, List.sum_append]

theorem variantsOf_append (l₁ l₂ : List ((String × String) × Nat)) (k : String × String) :
    variantsOf (l₁ ++ l₂) k = variantsOf l₁ k ++ variantsOf l₂ k := by
  unfold variantsOf
  rw [List.filterMap_append]

theorem key_match_iff (e : (String × String) × Nat) (k : String × String) :
    (e.1.1 = k.1 ∧ pyLower e.1.2 = k.2) ↔ k = (e.1.1, pyLower e.1.2) := by
  constructor
  · intro ⟨h1, h2⟩
    obtain ⟨k1, k2⟩ := k
    simp only at h1 h2
    rw [← h1, ← h2]
  · intro h
    subst h
    exact ⟨rfl, rfl⟩

theorem variantsOf_single (e : (String × String) × Nat) (k : String × String) :
    variantsOf [e] k =
      if k = (e.1.1, pyLower e.1.2) then [(e.1.2, e.2)] else [] := by
  unfold variantsOf
  simp only [List.filterMap]
  by_cases h : e.1.1 = k.1 ∧ pyLower e.1.2 = k.2
  · rw [if_pos ((key_match_iff e k).mp h)]
    simp [h]
  · rw [if_neg (fun hh => h ((key_match_iff e k).mpr hh))]
    simp [h]

theorem mem_variantsOf {rc : List ((String × String) × Nat)} {k : String × String}
    {p : String × Nat} (h : p ∈ variantsOf rc k) :
    ((k.1, p.1), p.2) ∈ rc ∧ pyLower p.1 = k.2 := by
  unfold variantsOf at h
  obtain ⟨e, he, heq⟩ := List.mem_filterMap.mp h
  by_cases hc : e.1.1 = k.1 ∧ pyLower e.1.2 = k.2
  · rw [if_pos hc] at heq
    injection heq with heq
    obtain ⟨hw, hn⟩ := Prod.mk.inj heq
    constructor
    · have : e = ((k.1, p.1), p.2) := by
        obtain ⟨⟨e1, e2⟩, e3⟩ := e
        simp only at hw hn hc
        rw [← hw, ← hn, ← hc.1]
      rw [← this]
      exact he
    · rw [← hw]
      exact hc.2
  · rw [if_neg hc] at heq
    exact absurd heq (by simp)

theorem find?_append_of_none {p : (String × Nat) → Bool}
    {l₁ : List (String × Nat)} (l₂ : List (String × Nat))
    (h : l₁.find? p = none) : (l₁ ++ l₂).find? p = l₂.find? p := by
  induction l₁ with
  | nil => rfl
  | cons q t ih =>
    by_cases hq : p q = true
    · rw [List.find?_cons_of_pos _ hq] at h
      exact absurd h (by simp)
    · rw [List.find?_cons_of_neg _ hq] at h
      rw [List.cons_append, List.find?_cons_of_neg _ hq]
      exact ih h

theorem find?_append_of_some {p : (String × Nat) → Bool}
    {l₁ : List (String × Nat)} (l₂ : List (String × Nat)) {q : String × Nat}
    (h : l₁.find? p = some q) : (l₁ ++ l₂).find? p = some q := by
  induction l₁ with
  | nil => simp at h
  | cons r t ih =>
    by_cases hr : p r = true
    · rw [List.find?_cons_of_pos _ hr] at h
      rw [List.cons_append, List.find?_cons_of_pos _ hr]
      exact h
    · rw [List.find?_cons_of_neg _ hr] at h
      rw [List.cons_append, List.find?_cons_of_neg _ hr]
      exact ih h

theorem pass2Step_def (rc : List ((String × String) × Nat))
    (st : ((String × String) → Option String) × List ((String × String) × Nat))
    (e : (String × String) × Nat) :
    pass2Step rc st e =
      (match st.1 (e.1.1, pyLower e.1.2) with
       | none => fun k => if k = (e.1.1, pyLower e.1.2) then some e.1.2 else st.1 k
       | some w' =>
         if (lookupA rc (e.1.1, w')).getD 0 < e.2 then
           fun k => if k = (e.1.1, pyLower e.1.2) then some e.1.2 else st.1 k
         else st.1,
       bumpCount st.2 (e.1.1, pyLower e.1.2) e.2) := rfl

theorem pass2Step_inv {rc done rest : List ((String × String) × Nat)}
    {e : (String × String) × Nat}
    (hrc : rc = done ++ e :: rest) (hnd : NodupKeys rc)
    {st : ((String × String) → Option String) × List ((String × String) × Nat)}
    (hinv : pass2Inv done st) :
    pass2Inv (done ++ [e]) (pass2Step rc st e) := by
  obtain ⟨⟨cls, w⟩, cnt⟩ := e
  obtain ⟨hcan, hcnt, hndc⟩ := hinv
  rw [pass2Step_def]
  dsimp only
  refine ⟨?_, ?_, ?_⟩
  · -- canonical component
    intro k
    by_cases hk : k = (cls, pyLower w)
    · subst hk
      have hv : variantsOf (done ++ [((cls, w), cnt)]) (cls, pyLower w) =
          variantsOf done (cls, pyLower w) ++ [(w, cnt)] := by
        rw [variantsOf_append, variantsOf_single]
        simp
      rw [hv]
      cases hc : st.1 (cls, pyLower w) with
      | none =>
        dsimp only
        have hvnil : variantsOf done (cls, pyLower w) = [] :=
          firstMax_eq_none_iff.mp ((hcan _).symm.trans hc)
        rw [hvnil]
        simp only [List.nil_append]
        simp [firstMax, maxCount, List.find?]
      | some w' =>
        dsimp only
        have hfm : firstMax (variantsOf done (cls, pyLower w)) = some w' :=
          (hcan _).symm.trans hc
        unfold firstMax at hfm
        obtain ⟨p, hfind, hp1⟩ := Option.map_eq_some'.mp hfm
        have hpmax : p.2 = maxCount (variantsOf done (cls, pyLower w)) := by
          have := List.find?_some hfind
          simpa using this
        have hpmem : p ∈ variantsOf done (cls, pyLower w) :=
          List.mem_of_find?_eq_some hfind
        have hprc : ((cls, p.1), p.2) ∈ rc := by
          have := (mem_variantsOf hpmem).1
          rw [hrc]
          exact List.mem_append_left _ this
        have hlkp : lookupA rc (cls, w') = some p.2 := by
          rw [← hp1]
          exact lookupA_of_mem_nodup hnd hprc
        rw [hlkp]
        simp only [Option.getD_some]
        by_cases hlt : p.2 < cnt
        · rw [if_pos hlt]
          simp only [if_pos rfl]
          -- firstMax of the extended list is the new casing
          unfold firstMax
          rw [maxCount_append_single, ← hpmax, Nat.max_eq_right (Nat.le_of_lt hlt)]
          have hnone : (variantsOf done (cls, pyLower w)).find?
              (fun q => q.2 = cnt) = none := by
            rw [List.find?_eq_none]
            intro q hq
            have hle : q.2 ≤ p.2 := hpmax ▸ le_maxCount_of_mem hq
            simp only [decide_eq_true_eq]
            omega
          rw [find?_append_of_none _ hnone]
          simp [List.find?]
        · rw [if_neg hlt]
          rw [hc]
          -- the stored casing remains the first maximum
          unfold firstMax
          rw [maxCount_append_single, ← hpmax,
            Nat.max_eq_left (Nat.le_of_not_lt hlt)]
          rw [← hpmax] at hfind
          rw [find?_append_of_some _ hfind]
          simp [hp1]
    · -- a different folded key is untouched
      have hv : variantsOf (done ++ [((cls, w), cnt)]) k = variantsOf done k := by
        rw [variantsOf_append, variantsOf_single]
        rw [if_neg hk]
        simp
      rw [hv]
      cases hc : st.1 (cls, pyLower w) with
      | none =>
        dsimp only
        rw [if_neg hk]
        exact hcan k
      | some w' =>
        dsimp only
        split
        · simp only [if_neg hk]
          exact hcan k
        · exact hcan k
  · -- counter component
    intro k
    by_cases hk : k = (cls, pyLower w)
    · subst hk
      have hv : variantsOf (done ++ [((cls, w), cnt)]) (cls, pyLower w) =
          variantsOf done (cls, pyLower w) ++ [(w, cnt)] := by
        rw [variantsOf_append, variantsOf_single]
        simp
      rw [hv, lookupA_bump_self, hcnt]
      have hne : variantsOf done (cls, pyLower w) ++ [(w, cnt)] ≠ [] := by simp
      rw [if_neg hne]
      by_cases hemp : variantsOf done (cls, pyLower w) = []
      · rw [if_pos hemp, hemp]
        simp [sumCounts]
      · rw [if_neg hemp]
        simp only [Option.getD_some]
        rw [sumCounts_append]
        simp [sumCounts]
    · have hv : variantsOf (done ++ [((cls, w), cnt)]) k = variantsOf done k := by
        rw [variantsOf_append, variantsOf_single]
        rw [if_neg hk]
        simp
      rw [hv, lookupA_bump_other _ _ _ _ hk]
      exact hcnt k
  · exact nodupKeys_bumpCount _ _ hndc

theorem pass2_foldl_inv {rc : List ((String × String) × Nat)} (hnd : NodupKeys rc) :
    ∀ (todo done : List ((String × String) × Nat))
      (st : ((String × String) → Option String) × List ((String × String) × Nat)),
      rc = done ++ todo → pass2Inv done st →
      pass2Inv (done ++ todo) (todo.foldl (pass2Step rc) st) := by
  intro todo
  induction todo with
  | nil =>
    intro done st hr hinv
    simpa using hinv
  | cons e rest ih =>
    intro done st hr hinv
    have hstep := pass2Step_inv hr hnd hinv
    have hr2 : rc = (done ++ [e]) ++ rest := by
      rw [hr, List.append_assoc]
      rfl
    have := ih (done ++ [e]) _ hr2 hstep
    rw [List.append_assoc] at this
    simpa using this

theorem pass2_spec {rc : List ((String × String) × Nat)} (hnd : NodupKeys rc) :
    pass2Inv rc (pass2 rc) := by
  have hinit : pass2Inv [] ((fun _ => none, [])) := by
    refine ⟨?_, ?_, ?_⟩
    · intro k; rfl
    · intro k; rfl
    · simp [NodupKeys]
  have := pass2_foldl_inv hnd rc [] _ (by simp) hinit
  simpa [pass2] using this

theorem firstMax_mem {vs : List (String × Nat)} {w : String}
    (h : firstMax vs = some w) : ∃ n, (w, n) ∈ vs := by
  unfold firstMax at h
  obtain ⟨p, hfind, hp1⟩ := Option.map_eq_some'.mp h
  exact ⟨p.2, by rw [← hp1]; exact List.mem_of_find?_eq_some hfind⟩

theorem pass2_canonical_lower {rc : List ((String × String) × Nat)}
    (hnd : NodupKeys rc) {k : String × String} {w : String}
    (h : (pass2 rc).1 k = some w) : pyLower w = k.2 := by
  have hs := (pass2_spec hnd).1 k
  rw [h] at hs
  obtain ⟨n, hn⟩ := firstMax_mem hs.symm
  exact (mem_variantsOf hn).2

theorem pass2_canonical_of_mem {rc : List ((String × String) × Nat)}
    (hnd : NodupKeys rc) {e : (String × String) × Nat}
    (he : e ∈ (pass2 rc).2) :
    ∃ w, (pass2 rc).1 e.1 = some w ∧ pyLower w = e.1.2 := by
  obtain ⟨hcan, hcnt, hndc⟩ := pass2_spec hnd
  obtain ⟨k, v⟩ := e
  have hlk : lookupA (pass2 rc).2 k = some v := lookupA_of_mem_nodup hndc he
  have h2 : (if variantsOf rc k = [] then none
      else some (sumCounts (variantsOf rc k))) = some v :=
    (hcnt k).symm.trans hlk
  by_cases hemp : variantsOf rc k = []
  · rw [if_pos hemp] at h2
    exact absurd h2 (by simp)
  · have hne : firstMax (variantsOf rc k) ≠ none :=
      fun hh => hemp (firstMax_eq_none_iff.mp hh)
    obtain ⟨w, hw⟩ := Option.ne_none_iff_exists'.mp hne
    refine ⟨w, ?_, ?_⟩
    · rw [hcan k]
      exact hw
    · obtain ⟨n, hn⟩ := firstMax_mem hw
      exact (mem_variantsOf hn).2

/-- C2: pass 2 of the aggregator sums pass-1 counts across casings per
folded `(class, lowercased text)` key, and selects as canonical casing the
variant with the highest pass-1 count, ties broken by first-seen order
(`firstMax`); in particular three `GandCrab` and one `gandcrab` MAL
mentions aggregate to the single row `(MAL, Malware, GandCrab, 4)`. -/
theorem aggregate_case_fold :
    (∀ (merged : List CurEnt) (k : String × String),
      (pass2 (rawCounter merged)).1 k = firstMax (variantsOf (rawCounter merged) k) ∧
      lookupA (pass2 (rawCounter merged)).2 k =
        (if variantsOf (rawCounter merged) k = [] then none
         else some (sumCounts (variantsOf (rawCounter merged) k)))) ∧
    aggregate gandcrabRaws = .ok [⟨"MAL", "Malware", "GandCrab", 4⟩] := by
  constructor
  · intro merged k
    have h := pass2_spec (nodupKeys_rawCounter merged)
    exact ⟨h.1 k, h.2.1 k⟩
  · decide

theorem aggRows_pairwise (merged : List CurEnt) :
    (aggRows merged).Pairwise (fun r₁ r₂ =>
      ¬(r₁.Class = r₂.Class ∧ pyLower r₁.Entity = pyLower r₂.Entity)) := by
  have hnd := nodupKeys_rawCounter merged
  obtain ⟨hcan, hcnt, hndc⟩ := pass2_spec hnd
  have hpair : ((pass2 (rawCounter merged)).2).Pairwise (fun a b => a.1 ≠ b.1) := by
    unfold NodupKeys at hndc
    exact (List.pairwise_map).mp hndc
  have hperm : List.Perm (sortByCountDesc (pass2 (rawCounter merged)).2)
      (pass2 (rawCounter merged)).2 := by
    unfold sortByCountDesc
    exact List.perm_insertionSort _ _
  have hsorted := (hperm.pairwise_iff (fun h => Ne.symm h)).mpr hpair
  unfold aggRows rowsOf
  rw [List.pairwise_map]
  refine hsorted.imp_of_mem ?_
  intro a b ha hb hne hcon
  dsimp only at hcon
  have hma : a ∈ (pass2 (rawCounter merged)).2 := hperm.subset ha
  have hmb : b ∈ (pass2 (rawCounter merged)).2 := hperm.subset hb
  obtain ⟨wa, hwa, hla⟩ := pass2_canonical_of_mem hnd hma
  obtain ⟨wb, hwb, hlb⟩ := pass2_canonical_of_mem hnd hmb
  rw [hwa, hwb] at hcon
  simp only [Option.getD_some] at hcon
  apply hne
  have h1 : a.1.1 = b.1.1 := hcon.1
  have h2 : a.1.2 = b.1.2 := by
    rw [← hla, ← hlb]
    exact hcon.2
  obtain ⟨⟨a1, a2⟩, an⟩ := a
  obtain ⟨⟨b1, b2⟩, bn⟩ := b
  simp only at h1 h2
  rw [h1, h2]

/-- C6: the aggregator's output table has at most one row per
`(entityClass, lowercased canonical text)` pair, and the canonical
casing stored for a folded key lowercases back to that key. -/
theorem aggregate_unique_keys :
    (∀ (raws : List RawEnt) (rows : List Row), aggregate raws = .ok rows →
      rows.Pairwise (fun r₁ r₂ =>
        ¬(r₁.Class = r₂.Class ∧ pyLower r₁.Entity = pyLower r₂.Entity))) ∧
    (∀ (merged : List CurEnt) (k : String × String) (w : String),
      (pass2 (rawCounter merged)).1 k = some w → pyLower w = k.2) := by
  constructor
  · intro raws rows h
    unfold aggregate at h
    cases hm : _merge_adjacent raws with
    | error e =>
      rw [hm] at h
      exact absurd h (by simp [Except.map])
    | ok merged =>
      rw [hm] at h
      have hr : aggRows merged = rows := by
        simpa [Except.map] using h
      rw [← hr]
      exact aggRows_pairwise merged
  · intro merged k w h
    exact pass2_canonical_lower (nodupKeys_rawCounter merged) h

/-- C6 witness: the uniqueness statement instantiated on the GandCrab
aggregation run. -/
theorem aggregate_unique_keys_witness :
    ([⟨"MAL", "Malware", "GandCrab", 4⟩] : List Row).Pairwise (fun r₁ r₂ =>
      ¬(r₁.Class = r₂.Class ∧ pyLower r₁.Entity = pyLower r₂.Entity)) :=
  aggregate_unique_keys.1 gandcrabRaws [⟨"MAL", "Malware", "GandCrab", 4⟩]
    (by decide)

theorem count_eq_of_perm {l₁ l₂ : List (String × String)} (h : l₁.Perm l₂)
    (k : String × String) : l₁.count k = l₂.count k := by
  unfold List.count
  exact h.countP_eq _

/-- C4 counterexample: `aggregate` is not permutation invariant.  The
merger folds out-of-order same-class spans (a negative gap is `≤ 3`), so
reversing two distant GandCrab mentions produces the single merged text
`"gandcrab GandCrab"`, which cleans to a different entity than the two
separate mentions of the original order. -/
theorem aggregate_not_permutation_invariant :
    aggregate [malPred "GandCrab" 0 8, malPred "gandcrab" 100 108] =
      .ok [⟨"MAL", "Malware", "GandCrab", 2⟩] ∧
    aggregate [malPred "gandcrab" 100 108, malPred "GandCrab" 0 8] =
      .ok [⟨"MAL", "Malware", "gandcrabGandCrab", 1⟩] ∧
    ¬ (([⟨"MAL", "Malware", "GandCrab", 2⟩] : List Row).Perm
        [⟨"MAL", "Malware", "gandcrabGandCrab", 1⟩]) := by
  refine ⟨by decide, by decide, ?_⟩
  intro h
  have := h.length_eq
  have hm : (⟨"MAL", "Malware", "GandCrab", 2⟩ : Row) ∈
      ([⟨"MAL", "Malware", "gandcrabGandCrab", 1⟩] : List Row) :=
    h.subset (List.mem_cons_self _ _)
  simp at hm

/-- C4 (amended): the aggregation passes (after span merging) are
permutation invariant up to canonical casing — permuting the merged
mention list yields the same multiset of
`(class, description, lowercased text, count)` projections of the rows.
The casing itself may differ when counts tie, and the full `aggregate`
(which re-merges) is order sensitive, per the counterexample. -/
theorem aggRows_perm_proj :
    ∀ (l₁ l₂ : List CurEnt), l₁.Perm l₂ →
      ((aggRows l₁).map projRow).Perm ((aggRows l₂).map projRow) := by
  intro l₁ l₂ hperm
  have hrcl : ∀ k, lookupA (rawCounter l₁) k = lookupA (rawCounter l₂) k := by
    intro k
    rw [lookupA_rawCounter, lookupA_rawCounter,
      count_eq_of_perm (hperm.filterMap mentKey) k]
  have hrcperm : (rawCounter l₁).Perm (rawCounter l₂) :=
    assoc_ext_perm (nodupKeys_rawCounter l₁) (nodupKeys_rawCounter l₂) hrcl
  have hvar : ∀ k, (variantsOf (rawCounter l₁) k).Perm (variantsOf (rawCounter l₂) k) :=
    fun k => hrcperm.filterMap _
  obtain ⟨hcan1, hcnt1, hnd1⟩ := pass2_spec (nodupKeys_rawCounter l₁)
  obtain ⟨hcan2, hcnt2, hnd2⟩ := pass2_spec (nodupKeys_rawCounter l₂)
  have hctl : ∀ k, lookupA (pass2 (rawCounter l₁)).2 k =
      lookupA (pass2 (rawCounter l₂)).2 k := by
    intro k
    rw [hcnt1 k, hcnt2 k]
    have hv := hvar k
    by_cases he : variantsOf (rawCounter l₁) k = []
    · have he2 : variantsOf (rawCounter l₂) k = [] := by
        rw [he] at hv
        exact hv.symm.eq_nil
      rw [he, he2]
    · have he2 : variantsOf (rawCounter l₂) k ≠ [] := by
        intro hh
        apply he
        rw [hh] at hv
        exact hv.eq_nil
      rw [if_neg he, if_neg he2]
      unfold sumCounts
      rw [(hv.map (fun p => p.2)).sum_eq]
  have hcntperm : ((pass2 (rawCounter l₁)).2).Perm ((pass2 (rawCounter l₂)).2) :=
    assoc_ext_perm hnd1 hnd2 hctl
  have hmap : ∀ (l : List CurEnt),
      (aggRows l).map projRow =
        (sortByCountDesc (pass2 (rawCounter l)).2).map
          (fun e => (e.1.1, descriptionOf e.1.1, e.1.2, e.2)) := by
    intro l
    unfold aggRows rowsOf
    rw [List.map_map]
    apply List.map_congr_left
    intro e he
    have hme : e ∈ (pass2 (rawCounter l)).2 := by
      unfold sortByCountDesc at he
      exact (List.perm_insertionSort _ _).subset he
    obtain ⟨w, hw, hl⟩ := pass2_canonical_of_mem (nodupKeys_rawCounter l) hme
    simp only [Function.comp, projRow]
    rw [hw]
    simp only [Option.getD_some]
    rw [hl]
  rw [hmap l₁, hmap l₂]
  exact ((List.perm_insertionSort _ _).map _).trans
    ((hcntperm.map _).trans ((List.perm_insertionSort _ _).map _).symm)

/-- C4 witness: the amended statement at a concrete two-mention swap. -/
theorem aggRows_perm_proj_witness :
    ((aggRows [mentGandCrab, mentgandcrab]).map projRow).Perm
      ((aggRows [mentgandcrab, mentGandCrab]).map projRow) :=
  aggRows_perm_proj _ _ (List.Perm.swap mentgandcrab mentGandCrab [])

end AssocLemmas

end NER
